import Mathlib

/-!
Verification of the spdb hierarchical Entry data model.

The development shallowly embeds the two Entry implementations of the
repository:

* `SpdbDb` models `src/source/db/Entry.cpp` (namespace `sp::db`).  Entries
  live in an addressed heap (`State`), because `Reference` values alias other
  entries by pointer and may form cycles.  An address is a `Nat`; reading an
  unallocated address yields `EntryVal.empty` (a default-constructed Entry).
  Accessors that recurse through `Reference` values (`as_object`,
  `as_array`, `update`) take an explicit fuel argument; a result of `none`
  means the C++ recursion did not terminate within that fuel.  Exceptions
  are rendered as `Res.err` carrying the heap at the point of the throw.

* `SpMem` models `src/source/Entry.cpp` (`EntryInterfaceInMemory`), whose
  per-node variant `m_data_` is a closed tree value (`MData`).

* `SpdbCreate` models the backend resolution of `EntryObject::create`
  (db/Entry.cpp:129-192) together with a registry modelled from the spec,
  because `utility/Factory.h` is not among the sources.

`src/source/db/Entry.h` (the declaration of `Entry::base_type` and of the
`type_tags`) is not under `src/`; the variant alternatives follow the spec
(§3): Empty, Block, Object, Array, Reference and a scalar stand-in
`scalarV` for the remaining leaf alternatives handled by the `default:`
branches of the source.
-/

namespace SpdbDb

/-- Variant payload of an `sp::db::Entry` (its `base_type` `std::variant`).
`object` holds the key-to-address map of an `EntryObjectDefault`
(`std::map<std::string, Entry>`, rendered as an association list of child
addresses), `array` the element addresses of an `EntryArrayDefault`
(`std::vector<Entry>`), `reference` the address of the aliased Entry,
`block` an opaque `DataBlock` identifier and `scalarV` stands for the
scalar/extension leaf alternatives. -/
inductive EntryVal : Type where
  | empty : EntryVal
  | block (b : Nat) : EntryVal
  | object (ch : List (String × Nat)) : EntryVal
  | array (es : List Nat) : EntryVal
  | reference (t : Nat) : EntryVal
  | scalarV (v : Int) : EntryVal
deriving DecidableEq

/-- Heap of entries: an association list from addresses to values plus an
allocation counter for fresh child addresses. -/
structure State : Type where
  mem : List (Nat × EntryVal)
  next : Nat
deriving DecidableEq

/-- Lookup of the first binding of an address in the heap list. -/
def lookupMem : List (Nat × EntryVal) → Nat → Option EntryVal
  | [], _ => none
  | (b, v) :: rest, a => if b = a then some v else lookupMem rest a

/-- Reading an address; an unallocated address is a default-constructed
(Empty) Entry. -/
def State.read (σ : State) (a : Nat) : EntryVal :=
  (lookupMem σ.mem a).getD EntryVal.empty

/-- Writing an address (the new binding shadows the old one). -/
def State.write (σ : State) (a : Nat) (v : EntryVal) : State :=
  ⟨(a, v) :: σ.mem, σ.next⟩

/-- Advancing the allocation counter after a fresh child was handed out. -/
def State.bump (σ : State) : State := ⟨σ.mem, σ.next + 1⟩

/-- Model of `Entry::fetch` (db/Entry.cpp:15): one single reference hop —
`index() == Reference ? *std::get<Reference>(*this) : *this`.  The function
is total: it always returns an address and has no failure outcome. -/
def Entry.fetch (σ : State) (a : Nat) : Nat :=
  match σ.read a with
  | .reference t => t
  | _ => a

/-- Model of `Entry::clear` (db/Entry.cpp:29): `emplace<nullptr_t>(nullptr)`
resets the entry to Empty. -/
def Entry.clear (σ : State) (a : Nat) : State := σ.write a .empty

/-- Iterating `Entry::fetch`, to describe what repeated resolution of a
reference chain does. -/
def iterFetch : Nat → State → Nat → Nat
  | 0, _, a => a
  | n + 1, σ, a => Entry.fetch σ (iterFetch n σ a)

/-- Exceptions thrown by the modelled code: `typeMismatch` is the
`std::runtime_error("illegal type")` of the `as_*` accessors, `outOfRange`
the `std::out_of_range` of `std::map::at` / `std::vector::at`, and
`badVariantAccess` the `std::bad_variant_access` of `std::get` on a wrong
alternative. -/
inductive Err : Type where
  | typeMismatch : Err
  | outOfRange : Err
  | badVariantAccess : Err
deriving DecidableEq

/-- Outcome of a mutating operation: a normal return or a thrown exception,
each carrying the heap as mutated up to that point. -/
inductive Res (α : Type) : Type where
  | ok (σ : State) (v : α) : Res α
  | err (σ : State) (e : Err) : Res α
deriving DecidableEq

/-- Heap carried by a `Res`. -/
def Res.st {α : Type} : Res α → State
  | .ok σ _ => σ
  | .err σ _ => σ

/-- Model of `Entry::update` (db/Entry.cpp:19-25): forwards along the
reference chain and does nothing else; `none` models divergence on a
reference cycle. -/
def updateE : Nat → State → Nat → Option Unit
  | 0, _, _ => none
  | fuel + 1, σ, a =>
    match σ.read a with
    | .reference t => updateE fuel σ t
    | _ => some ()

/-- Model of the trailing `return *std::get<Object>(fetch());` of
`Entry::as_object`: one fetch hop, then a checked variant access. -/
def finishO (σ : State) (a : Nat) : Res Nat :=
  match σ.read (Entry.fetch σ a) with
  | .object _ => .ok σ (Entry.fetch σ a)
  | _ => .err σ .badVariantAccess

/-- Model of `Entry::as_object` (db/Entry.cpp:60-77).  Empty promotes the
entry in place to an Object via `EntryObject::create(this)` — with the
empty request this is the default in-memory `EntryObjectDefault`
(db/Entry.cpp:131-134), an empty key map.  Object falls through, Reference
recurses into the target, every other variant throws
`runtime_error("illegal type")`.  After the switch the result object is
re-read through `fetch()`. -/
def asObject : Nat → State → Nat → Option (Res Nat)
  | 0, _, _ => none
  | fuel + 1, σ, a =>
    match σ.read a with
    | .empty => some (finishO (σ.write a (.object [])) a)
    | .object _ => some (finishO σ a)
    | .reference t =>
      match asObject fuel σ t with
      | none => none
      | some (.err σ1 e) => some (.err σ1 e)
      | some (.ok σ1 _) => some (finishO σ1 a)
    | _ => some (.err σ .typeMismatch)

/-- Model of the trailing `return *std::get<Array>(fetch());` of
`Entry::as_array`. -/
def finishA (σ : State) (a : Nat) : Res Nat :=
  match σ.read (Entry.fetch σ a) with
  | .array _ => .ok σ (Entry.fetch σ a)
  | _ => .err σ .badVariantAccess

/-- Model of `Entry::as_array` (db/Entry.cpp:88-107).  As `as_object`, but
the promotion target is the default `EntryArrayDefault` (an empty vector)
and the Reference branch additionally calls `update()` after the recursive
call. -/
def asArray : Nat → State → Nat → Option (Res Nat)
  | 0, _, _ => none
  | fuel + 1, σ, a =>
    match σ.read a with
    | .empty => some (finishA (σ.write a (.array [])) a)
    | .array _ => some (finishA σ a)
    | .reference t =>
      match asArray fuel σ t with
      | none => none
      | some (.err σ1 e) => some (.err σ1 e)
      | some (.ok σ1 _) =>
        match updateE (fuel + 1) σ1 a with
        | none => none
        | some _ => some (finishA σ1 a)
    | _ => some (.err σ .typeMismatch)

/-- Key lookup in the child map of an `EntryObjectDefault`. -/
def alookup : List (String × Nat) → String → Option Nat
  | [], _ => none
  | (k1, c) :: rest, k => if k1 = k then some c else alookup rest k

/-- Model of `EntryObjectDefault::insert` (db/Entry.cpp:324-325):
`m_container_.try_emplace(name).first->second` — if the key is present the
existing child is returned and nothing changes, otherwise a fresh
default-constructed (Empty) child is bound to the key.  The fresh child
gets the next free address; nothing is written there, because an
unallocated address already reads as Empty.  The method is only ever
invoked on an entry holding an Object, so the fall-through arm is
unreachable at its call sites. -/
def tryEmplace (σ : State) (o : Nat) (k : String) : State × Nat :=
  match σ.read o with
  | .object ch =>
    match alookup ch k with
    | some c => (σ, c)
    | none => ((σ.write o (.object (ch ++ [(k, σ.next)]))).bump, σ.next)
  | _ => (σ, o)

/-- Model of `EntryArrayDefault::at` (db/Entry.cpp:400-402):
`m_container_.at(idx)` on a `std::vector`, called with an `int` index.  A
negative `int` converts to an enormous `size_type`, so `at` throws
`std::out_of_range` for every negative index as well as for every index at
or past `size()`; it never creates or returns a default element. -/
def vecAt (es : List Nat) (i : Int) : Except Err Nat :=
  if h : 0 ≤ i ∧ i.toNat < es.length then .ok (es.get ⟨i.toNat, h.2⟩)
  else .error .outOfRange

/-- Checked element access of the array stored at address `arr`. -/
def arrAtAddr (σ : State) (arr : Nat) (i : Int) : Except Err Nat :=
  match σ.read arr with
  | .array es => vecAt es i
  | _ => .error .badVariantAccess

/-- Model of `EntryArrayDefault::pop_back` (db/Entry.cpp:396-398):
`m_container_.pop_back()` with no emptiness check.  `std::vector::pop_back`
on an empty vector is undefined behaviour, rendered here as `none`; on a
non-empty vector the last element is removed. -/
def arrPopBack (es : List Nat) : Option (List Nat) :=
  if es = [] then none else some es.dropLast

/-- Path segment of an `XPath`: a string key or an integer index. -/
inductive Seg : Type where
  | key (k : String) : Seg
  | index (i : Int) : Seg

/-- One segment of the mutable walk of `EntryObject::insert(const XPath&)`
(db/Entry.cpp:199-219): a Key segment runs `p->as_object().insert(key)`, an
Index segment runs `p->as_array().at(idx)`. -/
def stepInsert (fuel : Nat) (σ : State) (p : Nat) : Seg → Option (Res Nat)
  | .key k =>
    match asObject fuel σ p with
    | none => none
    | some (.err σ1 e) => some (.err σ1 e)
    | some (.ok σ1 o) =>
      match tryEmplace σ1 o k with
      | (σ2, c) => some (.ok σ2 c)
  | .index i =>
    match asArray fuel σ p with
    | none => none
    | some (.err σ1 e) => some (.err σ1 e)
    | some (.ok σ1 arr) =>
      match arrAtAddr σ1 arr i with
      | .ok c => some (.ok σ1 c)
      | .error e => some (.err σ1 e)

/-- Model of `EntryObject::insert(const XPath&)` (db/Entry.cpp:199-219): the
walker starts at the owning entry and follows the segments left to right,
returning the entry it ends on. -/
def pathInsert (fuel : Nat) : State → Nat → List Seg → Option (Res Nat)
  | σ, p, [] => some (.ok σ p)
  | σ, p, seg :: rest =>
    match stepInsert fuel σ p seg with
    | none => none
    | some (.err σ1 e) => some (.err σ1 e)
    | some (.ok σ1 p1) => pathInsert fuel σ1 p1 rest

/-- One segment of the const walk of `EntryObject::at(const XPath&)`
(db/Entry.cpp:221-242).  A Key segment runs the const `as_object()`
(db/Entry.cpp:79-86), which checks `type()` — one fetch hop — and throws
`"illegal type"` otherwise, then `std::map::at`, which throws
`std::out_of_range` on a missing key.  An Index segment runs the const
`as_array()` (db/Entry.cpp:109-116), which checks `index()` on the entry
itself without any fetch, then the bounds-checked `EntryArrayDefault::at`. -/
def stepAt (σ : State) (p : Nat) : Seg → Except Err Nat
  | .key k =>
    match σ.read (Entry.fetch σ p) with
    | .object ch =>
      match alookup ch k with
      | some c => .ok c
      | none => .error .outOfRange
    | _ => .error .typeMismatch
  | .index i =>
    match σ.read p with
    | .array es => vecAt es i
    | _ => .error .typeMismatch

/-- Model of `EntryObject::at(const XPath&)` (db/Entry.cpp:221-242). -/
def pathAt (σ : State) : Nat → List Seg → Except Err Nat
  | p, [] => .ok p
  | p, seg :: rest =>
    match stepAt σ p seg with
    | .ok p1 => pathAt σ p1 rest
    | .error e => .error e

/-- Heaps whose entries hold no Reference anywhere. -/
def RefFree (σ : State) : Prop := ∀ a t, σ.read a ≠ .reference t

/-- Heap evolution produced by the insert walker: arrays are kept exactly,
and the key bindings of every object are kept (new keys may be added). -/
def Preserves (σ σ2 : State) : Prop :=
  (∀ q es, σ.read q = .array es → σ2.read q = .array es) ∧
  (∀ q ch, σ.read q = .object ch →
    ∃ ch2, σ2.read q = .object ch2 ∧
      ∀ k c, alookup ch k = some c → alookup ch2 k = some c)

/-- Heaps whose allocation counter really is past every allocated address:
every address at or beyond `next` reads as Empty. -/
def Fresh (σ : State) : Prop := ∀ a, σ.next ≤ a → σ.read a = .empty

/-- Cyclic two-entry heap: entry 0 holds `Reference(1)` and entry 1 holds
`Reference(0)` — the A→B→A configuration of the spec. -/
def cycAB : State := ⟨[(0, .reference 1), (1, .reference 0)], 2⟩

/-- Heap holding one empty array at address 0. -/
def arrHeap : State := ⟨[(0, .array [])], 1⟩

/-- Heap where entry 0 is a Reference to entry 1, which holds a one-element
array whose element lives at address 2. -/
def refArrHeap : State := ⟨[(0, .reference 1), (1, .array [2])], 3⟩

/-- Heap with nothing allocated: every address reads as a default Empty
entry. -/
def emptyHeap : State := ⟨[], 1⟩

/-- Heap produced by inserting the path `a` into the empty heap: address 0
was promoted to an Object holding the child `a` at address 1. -/
def insHeap : State := ⟨[(0, EntryVal.object [("a", 1)]), (0, EntryVal.object [])], 2⟩

/-- Heap holding at address 0 an Object with one child `a` at address 1. -/
def objHeap : State := ⟨[(0, EntryVal.object [("a", 1)])], 2⟩

end SpdbDb

namespace SpMem

/-- Variant payload `m_data_` of `EntryInterfaceInMemory`
(src/source/Entry.cpp:19-25): `std::variant<nullptr_t, single_t, tensor_t,
block_t, std::vector<Entry>, std::map<std::string, Entry>>`.  Scalar
payloads are rendered as `Int`, tensor and block payloads as opaque
identifiers; child Entries appear through their own variant values. -/
inductive MData : Type where
  | null : MData
  | single (v : Int) : MData
  | tensor (t : Nat) : MData
  | block (b : Nat) : MData
  | array (es : List MData) : MData
  | object (ch : List (String × MData)) : MData

/-- Variant index, as `Entry::Type(m_data_.index())`
(src/source/Entry.cpp:46): Null=0, Single=1, Tensor=2, Block=3, Array=4,
Object=5, in the declaration order of the variant. -/
def typeTag : MData → Nat
  | .null => 0
  | .single _ => 1
  | .tensor _ => 2
  | .block _ => 3
  | .array _ => 4
  | .object _ => 5

/-- Model of `EntryInterfaceInMemory::set_single` (Entry.cpp:89-99): the
guard is `type() < Entry::Type::Array`, so any of Null, Single, Tensor,
Block is overwritten with the new Single value; on Array and Object the
call throws `"Set value failed!"` (`none`). -/
def setSingle (d : MData) (v : Int) : Option MData :=
  if typeTag d < 4 then some (.single v) else none

/-- Model of `EntryInterfaceInMemory::set_tensor` (Entry.cpp:110-120), same
guard as `set_single`. -/
def setTensor (d : MData) (t : Nat) : Option MData :=
  if typeTag d < 4 then some (.tensor t) else none

/-- Model of `EntryInterfaceInMemory::set_block` (Entry.cpp:131-141), same
guard as `set_single`. -/
def setBlock (d : MData) (b : Nat) : Option MData :=
  if typeTag d < 4 then some (.block b) else none

/-- Key lookup in a `std::map<std::string, Entry>` association list. -/
def alookupM : List (String × MData) → String → Option MData
  | [], _ => none
  | (k1, v) :: rest, k => if k1 = k then some v else alookupM rest k

/-- Model of `EntryInterfaceInMemory::find(key)` (Entry.cpp:266-298): on an
Object node the child bound to the key, otherwise
(`std::bad_variant_access` caught) an empty iterator (`none`). -/
def find (d : MData) (k : String) : Option MData :=
  match d with
  | .object ch => alookupM ch k
  | _ => none

/-- Model of `Entry::has_a` (Entry.cpp:460): `return !find(key);` — the
negation of the returned iterator, which is empty exactly when the key is
absent. -/
def has_a (d : MData) (k : String) : Bool := (find d k).isNone

/-- Model of `EntryInterfaceInMemory::has_attribute` (Entry.cpp:50):
`return !find("@" + name);`. -/
def has_attribute (d : MData) (n : String) : Bool := (find d ("@" ++ n)).isNone

/-- Model of `EntryInterfaceInMemory::insert(key)` (Entry.cpp:300-316): a
Null node first promotes itself to an empty Object; then
`std::map::emplace` binds the key to a fresh default-constructed (Null)
child only when it is absent, returning the bound child; on a non-Null,
non-Object node the `std::get` throws `bad_variant_access`, which is
caught and turned into an empty iterator (`none`). -/
def minsert : MData → String → MData × Option MData
  | .null, k => (.object [(k, .null)], some .null)
  | .object ch, k =>
    match alookupM ch k with
    | some v => (.object ch, some v)
    | none => (.object (ch ++ [(k, .null)]), some .null)
  | d, _ => (d, none)

/-- Model of `EntryInterfaceInMemory::push_back` (Entry.cpp:231-247): a
Null node promotes to an empty Array, then a fresh Null entry is appended
and returned; any other non-Array node yields an empty iterator. -/
def spPushBack : MData → MData × Option MData
  | .null => (.array [.null], some .null)
  | .array es => (.array (es ++ [.null]), some .null)
  | d => (d, none)

/-- Outcome of `Entry::operator[](int)` (Entry.cpp:441-456): a returned
child together with the node afterwards, a thrown `std::out_of_range`, or
undefined behaviour. -/
inductive OpRes : Type where
  | ok (d : MData) (child : MData) : OpRes
  | thrown (d : MData) : OpRes
  | ub : OpRes

/-- Model of `Entry::operator[](int idx)` (Entry.cpp:441-456): a negative
index is routed to `*push_back()`, appending and returning a fresh
element; otherwise `at(idx)` (Entry.cpp:218-229) hands back `&m[idx]`
without any bounds check, so an index at or past `size()` dereferences out
of bounds — undefined behaviour (`ub`); only a non-Array node makes `at`
return an empty iterator, upon which `operator[]` throws
`std::out_of_range`.  Dereferencing the empty iterator that `push_back`
returns on a non-Null non-Array node is likewise undefined behaviour. -/
def spOpIdx (d : MData) (i : Int) : OpRes :=
  if i < 0 then
    match spPushBack d with
    | (d1, some c) => .ok d1 c
    | (_, none) => .ub
  else
    match d with
    | .array es =>
      if h : i.toNat < es.length then .ok (.array es) (es.get ⟨i.toNat, h⟩)
      else .ub
    | d1 => .thrown d1

end SpMem

namespace SpdbCreate

/-- Substring before the first `:` of the request:
`request.substr(0, request.find(":"))` in `EntryObject::create`
(db/Entry.cpp:138,154); `none` when the request has no colon. -/
def beforeColon : List Char → Option (List Char)
  | [] => none
  | c :: cs => if c = ':' then some [] else (beforeColon cs).map (c :: ·)

/-- Substring from the last `.` on, dot included:
`request.substr(request.rfind('.'))` (db/Entry.cpp:142-145); `none` when no
dot occurs. -/
def fromLastDot : List Char → Option (List Char)
  | [] => none
  | c :: cs =>
    match fromLastDot cs with
    | some s => some s
    | none => if c = '.' then some (c :: cs) else none

/-- Scheme extraction of `EntryObject::create` (db/Entry.cpp:136-155): the
text before the first `:`; with no colon, the substring from the last `.`
(dot included); with neither, the whole request. -/
def schemaOf (request : List Char) : List Char :=
  match beforeColon request with
  | some s => s
  | none =>
    match fromLastDot request with
    | some s => s
    | none => request

/-- Modelled from the spec: a registered backend of the
`Factory<EntryObject>` (utility/Factory.h is not among the sources).  Per
spec §4.6, registration associates a name with a constructor and optional
recognition patterns (regular expressions over request strings);
`has_creator` succeeds when a pattern of some registration matches the
resolved scheme, first match wins.  A pattern is rendered as a decidable
predicate on the scheme string. -/
structure Reg : Type where
  name : List Char
  pat : List Char → Bool

/-- Modelled from the spec: the recognition pattern `"^(.*)\.(hdf5|h5)$"`
registered for the hdf5 backend by `SPDB_ENTRY_ASSOCIATE(hdf5, hdf5_node,
...)` (plugins/PluginHDF5.cpp:833): it matches exactly the strings ending
in `.h5` or `.hdf5`. -/
def hdf5Pat : List Char → Bool := fun s =>
  List.isSuffixOf (String.toList ".h5") s || List.isSuffixOf (String.toList ".hdf5") s

/-- Registry holding the hdf5 backend registration. -/
def hdf5Reg : List Reg := [⟨String.toList "hdf5", hdf5Pat⟩]

/-- Outcome of backend resolution. -/
inductive CreateRes : Type where
  | defaultMem : CreateRes
  | backend (name : List Char) : CreateRes
  | notImpl : CreateRes
  | unknown (schema : List Char) : CreateRes
deriving DecidableEq

/-- Model of `EntryObject::create(self, request)` (db/Entry.cpp:129-192).
An empty request returns the default in-memory `EntryObjectDefault`
immediately; otherwise the scheme is extracted as in `schemaOf`; `http`
and `https` are NOT_IMPLEMENTED; an empty scheme selects the default
in-memory backend; a scheme recognised by a registered creator selects
that backend; anything else fails, naming the resolved scheme
(`"Can not parse schema " << schema`). -/
def create (reg : List Reg) (request : List Char) : CreateRes :=
  if request = [] then .defaultMem
  else
    let schema := schemaOf request
    if schema = String.toList "http" ∨ schema = String.toList "https" then .notImpl
    else if schema = [] then .defaultMem
    else
      match List.find? (fun r => r.pat schema) reg with
      | some r => .backend r.name
      | none => .unknown schema

end SpdbCreate

namespace SpdbDb

theorem read_write (σ : State) (o q : Nat) (v : EntryVal) :
    (σ.write o v).read q = if o = q then v else σ.read q := by
  simp only [State.write, State.read, lookupMem]
  split <;> rfl

theorem read_bump (σ : State) (q : Nat) : σ.bump.read q = σ.read q := rfl

/-- C1, counterexample.  `Entry::fetch` is a total function on the heap
(`State → Nat → Nat`): it has no failure outcome at all, so resolving an
entry of a reference cycle cannot fail with `CyclicReference` (no such
error exists in the code).  On the cycle A→B→A, `fetch(A)` simply returns
B, whose value is still a `Reference`, and `fetch(B)` returns A: resolution
performs one hop instead of iterating to a hop limit. -/
theorem c1_counterexample :
    Entry.fetch cycAB 0 = 1 ∧ cycAB.read 1 = .reference 0 ∧
    Entry.fetch cycAB 1 = 0 :=
  ⟨rfl, rfl, rfl⟩

/-- C1, amended.  `Entry::fetch` performs exactly one reference hop and
always terminates: on a `Reference` it returns the target (which may itself
be a `Reference`), on every other variant it returns the entry itself; no
hop limit exists and no `CyclicReference` error is ever produced.  Iterated
resolution of the cycle A→B→A oscillates between the two entries forever
instead of failing. -/
theorem c1_fetch_single_hop :
    (∀ (σ : State) (a t : Nat), σ.read a = .reference t → Entry.fetch σ a = t) ∧
    (∀ (σ : State) (a : Nat), (∀ t, σ.read a ≠ .reference t) → Entry.fetch σ a = a) ∧
    (∀ n, iterFetch n cycAB 0 = n % 2) := by
  refine ⟨?_, ?_, ?_⟩
  · intro σ a t h
    unfold Entry.fetch
    rw [h]
  · intro σ a h
    unfold Entry.fetch
    cases hv : σ.read a <;> first | rfl | exact absurd hv (h _)
  · intro n
    induction n with
    | zero => rfl
    | succ n ih =>
      rcases Nat.mod_two_eq_zero_or_one n with h | h
      · have h1 : (n + 1) % 2 = 1 := by omega
        show Entry.fetch cycAB (iterFetch n cycAB 0) = (n + 1) % 2
        rw [ih, h, h1]
        rfl
      · have h1 : (n + 1) % 2 = 0 := by omega
        show Entry.fetch cycAB (iterFetch n cycAB 0) = (n + 1) % 2
        rw [ih, h, h1]
        rfl

/-- Witness for C1: the single-hop clause applied to the concrete cycle. -/
theorem c1_witness : Entry.fetch cycAB 0 = 1 :=
  c1_fetch_single_hop.1 cycAB 0 1 rfl

theorem asArray_on_array (fuel : Nat) (σ : State) (a : Nat) (es : List Nat)
    (h : σ.read a = .array es) (hf : 1 ≤ fuel) :
    asArray fuel σ a = some (.ok σ a) := by
  obtain ⟨m, rfl⟩ : ∃ m, fuel = m + 1 := ⟨fuel - 1, by omega⟩
  have hfe : Entry.fetch σ a = a := by
    unfold Entry.fetch
    rw [h]
  simp only [asArray, h, finishA, hfe]

theorem asArray_on_empty (fuel : Nat) (σ : State) (a : Nat)
    (h : σ.read a = .empty) (hf : 1 ≤ fuel) :
    asArray fuel σ a = some (.ok (σ.write a (.array [])) a) := by
  obtain ⟨m, rfl⟩ : ∃ m, fuel = m + 1 := ⟨fuel - 1, by omega⟩
  have hr : (σ.write a (.array [])).read a = .array [] := by
    rw [read_write, if_pos rfl]
  have hfe : Entry.fetch (σ.write a (.array [])) a = a := by
    unfold Entry.fetch
    rw [hr]
  simp only [asArray, h, finishA, hfe, hr]

theorem asObject_on_empty (fuel : Nat) (σ : State) (a : Nat)
    (h : σ.read a = .empty) (hf : 1 ≤ fuel) :
    asObject fuel σ a = some (.ok (σ.write a (.object [])) a) := by
  obtain ⟨m, rfl⟩ : ∃ m, fuel = m + 1 := ⟨fuel - 1, by omega⟩
  have hr : (σ.write a (.object [])).read a = .object [] := by
    rw [read_write, if_pos rfl]
  have hfe : Entry.fetch (σ.write a (.object [])) a = a := by
    unfold Entry.fetch
    rw [hr]
  simp only [asObject, h, finishO, hfe, hr]

theorem asObject_on_object (fuel : Nat) (σ : State) (a : Nat)
    (ch : List (String × Nat)) (h : σ.read a = .object ch) (hf : 1 ≤ fuel) :
    asObject fuel σ a = some (.ok σ a) := by
  obtain ⟨m, rfl⟩ : ∃ m, fuel = m + 1 := ⟨fuel - 1, by omega⟩
  have hfe : Entry.fetch σ a = a := by
    unfold Entry.fetch
    rw [h]
  simp only [asObject, h, finishO, hfe]

/-- Helper for the Reference case of `as_object`: when the target is not
itself a Reference, a successful forwarded call returns the target address,
the target then holds an Object, and no other address was touched. -/
theorem asObject_ok_nonref (fuel : Nat) (σ σ2 : State) (t b : Nat)
    (hnr : ∀ u, σ.read t ≠ .reference u)
    (h : asObject fuel σ t = some (.ok σ2 b)) :
    b = t ∧ (∃ ch, σ2.read t = .object ch) ∧ ∀ q, q ≠ t → σ2.read q = σ.read q := by
  match fuel with
  | 0 => exact absurd h (by simp [asObject])
  | m + 1 =>
    cases hv : σ.read t with
    | empty =>
      rw [asObject_on_empty (m + 1) σ t hv (by omega)] at h
      obtain ⟨h1, h2⟩ : σ.write t (.object []) = σ2 ∧ t = b := by
        injection h with h
        injection h with h1 h2
        exact ⟨h1, h2⟩
      subst h1
      subst h2
      refine ⟨rfl, ⟨[], by rw [read_write, if_pos rfl]⟩, ?_⟩
      intro q hq
      rw [read_write, if_neg (fun hc => hq hc.symm)]
    | object ch =>
      rw [asObject_on_object (m + 1) σ t ch hv (by omega)] at h
      obtain ⟨h1, h2⟩ : σ = σ2 ∧ t = b := by
        injection h with h
        injection h with h1 h2
        exact ⟨h1, h2⟩
      subst h1
      subst h2
      exact ⟨rfl, ⟨ch, hv⟩, fun q _ => rfl⟩
    | reference u => exact absurd hv (hnr u)
    | block bb => simp [asObject, hv] at h
    | array es => simp [asObject, hv] at h
    | scalarV v => simp [asObject, hv] at h

/-- C2.  `Entry::as_object` by case on the current variant: Empty promotes
the entry in place to an Object backed by the default in-memory
implementation (an `EntryObjectDefault` with an empty key map) and returns
it; Object returns the existing object with the heap unchanged; Reference
forwards the whole call to the referenced target — for a target that is not
itself a reference the result, heap included, is exactly that of calling
`as_object` on the target; Block, Array and scalar variants throw the
`"illegal type"` TypeMismatch error with the heap unchanged. -/
theorem c2_as_object_cases (fuel : Nat) (σ : State) (a : Nat) (hf : 1 ≤ fuel) :
    (σ.read a = .empty → asObject fuel σ a = some (.ok (σ.write a (.object [])) a)) ∧
    (∀ ch, σ.read a = .object ch → asObject fuel σ a = some (.ok σ a)) ∧
    (∀ t, σ.read a = .reference t → (∀ u, σ.read t ≠ .reference u) → 2 ≤ fuel →
      asObject fuel σ a = asObject (fuel - 1) σ t) ∧
    (∀ b, σ.read a = .block b → asObject fuel σ a = some (.err σ .typeMismatch)) ∧
    (∀ es, σ.read a = .array es → asObject fuel σ a = some (.err σ .typeMismatch)) ∧
    (∀ v, σ.read a = .scalarV v → asObject fuel σ a = some (.err σ .typeMismatch)) := by
  obtain ⟨m, rfl⟩ : ∃ m, fuel = m + 1 := ⟨fuel - 1, by omega⟩
  refine ⟨fun h => asObject_on_empty _ _ _ h hf,
    fun ch h => asObject_on_object _ _ _ ch h hf, ?_, ?_, ?_, ?_⟩
  · intro t hrt hnr hf2
    have hm : 1 ≤ m := by omega
    show asObject (m + 1) σ a = asObject m σ t
    cases hrec : asObject m σ t with
    | none => simp only [asObject, hrt, hrec]
    | some r =>
      cases r with
      | err σ1 e => simp only [asObject, hrt, hrec]
      | ok σ1 b =>
        obtain ⟨hb, ⟨ch, hch⟩, hother⟩ := asObject_ok_nonref m σ σ1 t b hnr hrec
        have hat : a ≠ t := by
          intro hc
          rw [← hc] at hnr
          exact hnr t hrt
        have ha1 : σ1.read a = .reference t := by
          rw [hother a hat, hrt]
        have hfe : Entry.fetch σ1 a = t := by
          unfold Entry.fetch
          rw [ha1]
        rw [hb] at hrec
        simp only [asObject, hrt, hrec, finishO, hfe, hch]
        rw [hb]
  · intro b h
    simp only [asObject, h]
  · intro es h
    simp only [asObject, h]
  · intro v h
    simp only [asObject, h]

/-- Witness for C2: promoting the Empty entry at address 0 of the empty
heap. -/
theorem c2_witness :
    asObject 1 emptyHeap 0 = some (.ok (emptyHeap.write 0 (.object [])) 0) :=
  (c2_as_object_cases 1 emptyHeap 0 (by decide)).1 rfl

/-- C4.  Walking a path whose next segment is an Index `i` with
`size() <= i` fails with OutOfRange under both the mutable `insert` walk
and the const `at` walk, and the heap of the failure outcome is the
untouched input heap: path indexing never grows the addressed array (only
`push_back`/`resize`, which the walkers never call, change an array). -/
theorem c4_path_index_never_grows (fuel : Nat) (σ : State) (p : Nat) (i : Int)
    (es : List Nat) (rest : List Seg) (harr : σ.read p = .array es)
    (hge : (es.length : Int) ≤ i) (hf : 1 ≤ fuel) :
    pathInsert fuel σ p (.index i :: rest) = some (.err σ .outOfRange) ∧
    pathAt σ p (.index i :: rest) = .error .outOfRange := by
  have hv : vecAt es i = .error .outOfRange := by
    unfold vecAt
    rw [dif_neg]
    intro hcon
    omega
  constructor
  · have hs : stepInsert fuel σ p (.index i) = some (.err σ .outOfRange) := by
      simp only [stepInsert, asArray_on_array fuel σ p es harr hf, arrAtAddr, harr, hv]
    simp only [pathInsert, hs]
  · have hsa : stepAt σ p (.index i) = .error .outOfRange := by
      simp only [stepAt, harr, hv]
    simp only [pathAt, hsa]

/-- Witness for C4 at the concrete heap with an empty array and index 0. -/
theorem c4_witness :
    pathInsert 1 arrHeap 0 [Seg.index 0] = some (.err arrHeap .outOfRange) ∧
    pathAt arrHeap 0 [Seg.index 0] = .error .outOfRange :=
  c4_path_index_never_grows 1 arrHeap 0 0 [] [] rfl (by decide) (by decide)

/-- C3, counterexample.  On the heap where the walk start is a `Reference`
to an array, the path `[Index 0]` can be traversed by `insert` (the mutable
`as_array()` forwards through the reference), and `insert` returns the
element at address 2 — but `at` on the very same heap and path fails with
the `"illegal type"` error, because the const `as_array()`
(db/Entry.cpp:111) tests `index() != type_tags::Array` on the entry itself
without resolving the reference.  So insert-then-at does not return the
inserted node for every traversable path. -/
theorem c3_counterexample :
    pathInsert 2 refArrHeap 0 [Seg.index 0] = some (.ok refArrHeap 2) ∧
    pathAt refArrHeap 0 [Seg.index 0] = .error .typeMismatch :=
  ⟨rfl, rfl⟩

/-- C7.  `EntryArrayDefault::pop_back` forwards to `std::vector::pop_back`
with no emptiness check: on a non-empty array exactly the last element is
removed, but on an empty array the call violates the vector precondition —
undefined behaviour (`none`), not a typed OutOfRange failure. -/
theorem c7_pop_back_unchecked :
    arrPopBack [] = none ∧ ∀ (xs : List Nat) (x : Nat), arrPopBack (xs ++ [x]) = some xs := by
  constructor
  · rfl
  · intro xs x
    unfold arrPopBack
    rw [if_neg (by simp), List.dropLast_concat]

theorem alookup_append_some (ch l : List (String × Nat)) (k : String) (c : Nat)
    (h : alookup ch k = some c) : alookup (ch ++ l) k = some c := by
  induction ch with
  | nil => exact absurd h (by simp [alookup])
  | cons p rest ih =>
    obtain ⟨k1, c1⟩ := p
    by_cases hk : k1 = k
    · simpa [alookup, hk] using h
    · rw [List.cons_append]
      unfold alookup
      rw [if_neg hk]
      unfold alookup at h
      rw [if_neg hk] at h
      exact ih h

theorem alookup_append_fresh (ch : List (String × Nat)) (k : String) (n : Nat)
    (h : alookup ch k = none) : alookup (ch ++ [(k, n)]) k = some n := by
  induction ch with
  | nil => simp [alookup]
  | cons p rest ih =>
    obtain ⟨k1, c1⟩ := p
    by_cases hk : k1 = k
    · simp [alookup, hk] at h
    · rw [List.cons_append]
      unfold alookup
      rw [if_neg hk]
      unfold alookup at h
      rw [if_neg hk] at h
      exact ih h

theorem preserves_rfl (σ : State) : Preserves σ σ :=
  ⟨fun _ _ h => h, fun _ ch h => ⟨ch, h, fun _ _ hc => hc⟩⟩

theorem preserves_trans {σ1 σ2 σ3 : State} (h12 : Preserves σ1 σ2)
    (h23 : Preserves σ2 σ3) : Preserves σ1 σ3 := by
  refine ⟨fun q es h => h23.1 q es (h12.1 q es h), fun q ch h => ?_⟩
  obtain ⟨ch2, h2, hk2⟩ := h12.2 q ch h
  obtain ⟨ch3, h3, hk3⟩ := h23.2 q ch2 h2
  exact ⟨ch3, h3, fun k c hc => hk3 k c (hk2 k c hc)⟩

theorem preserves_write_empty (σ : State) (a : Nat) (v : EntryVal)
    (h : σ.read a = .empty) : Preserves σ (σ.write a v) := by
  constructor
  · intro q es hq
    rw [read_write, if_neg]
    · exact hq
    · intro hc
      rw [hc] at h
      rw [h] at hq
      exact EntryVal.noConfusion hq
  · intro q ch hq
    refine ⟨ch, ?_, fun _ _ hc => hc⟩
    rw [read_write, if_neg]
    · exact hq
    · intro hc
      rw [hc] at h
      rw [h] at hq
      exact EntryVal.noConfusion hq

theorem tryEmplace_preserves (σ : State) (o : Nat) (k : String) :
    Preserves σ (tryEmplace σ o k).1 := by
  cases ho : σ.read o with
  | object ch =>
    cases hl : alookup ch k with
    | some c =>
      simp only [tryEmplace, ho, hl]
      exact preserves_rfl σ
    | none =>
      simp only [tryEmplace, ho, hl]
      constructor
      · intro q es hq
        rw [read_bump, read_write, if_neg]
        · exact hq
        · intro hc
          rw [hc] at ho
          rw [ho] at hq
          exact EntryVal.noConfusion hq
      · intro q ch0 hq
        by_cases hoq : o = q
        · have hch : ch0 = ch := by
            rw [← hoq] at hq
            rw [ho] at hq
            injection hq with h
            exact h.symm
          refine ⟨ch ++ [(k, σ.next)], ?_, ?_⟩
          · rw [read_bump, read_write, if_pos hoq]
          · intro k1 c1 hc
            rw [hch] at hc
            exact alookup_append_some ch [(k, σ.next)] k1 c1 hc
        · refine ⟨ch0, ?_, fun _ _ hc => hc⟩
          rw [read_bump, read_write, if_neg hoq]
          exact hq
  | empty =>
    simp only [tryEmplace, ho]
    exact preserves_rfl σ
  | block b =>
    simp only [tryEmplace, ho]
    exact preserves_rfl σ
  | array es =>
    simp only [tryEmplace, ho]
    exact preserves_rfl σ
  | reference t =>
    simp only [tryEmplace, ho]
    exact preserves_rfl σ
  | scalarV v =>
    simp only [tryEmplace, ho]
    exact preserves_rfl σ

theorem finishO_st (σ : State) (a : Nat) : (finishO σ a).st = σ := by
  unfold finishO
  split <;> rfl

theorem finishA_st (σ : State) (a : Nat) : (finishA σ a).st = σ := by
  unfold finishA
  split <;> rfl

theorem asObject_preserves : ∀ (fuel : Nat) (σ : State) (a : Nat) (r : Res Nat),
    asObject fuel σ a = some r → Preserves σ r.st := by
  intro fuel
  induction fuel with
  | zero =>
    intro σ a r h
    exact absurd h (by simp [asObject])
  | succ m ih =>
    intro σ a r h
    cases hv : σ.read a with
    | empty =>
      simp only [asObject, hv] at h
      injection h with h
      subst h
      rw [finishO_st]
      exact preserves_write_empty σ a (.object []) hv
    | object ch =>
      simp only [asObject, hv] at h
      injection h with h
      subst h
      rw [finishO_st]
      exact preserves_rfl σ
    | reference t =>
      cases hrec : asObject m σ t with
      | none =>
        simp only [asObject, hv, hrec] at h
        exact Option.noConfusion h
      | some r1 =>
        cases r1 with
        | err σ1 e =>
          simp only [asObject, hv, hrec] at h
          injection h with h
          subst h
          exact ih σ t (.err σ1 e) hrec
        | ok σ1 b =>
          simp only [asObject, hv, hrec] at h
          injection h with h
          subst h
          rw [finishO_st]
          exact ih σ t (.ok σ1 b) hrec
    | block b =>
      simp only [asObject, hv] at h
      injection h with h
      subst h
      exact preserves_rfl σ
    | array es =>
      simp only [asObject, hv] at h
      injection h with h
      subst h
      exact preserves_rfl σ
    | scalarV v =>
      simp only [asObject, hv] at h
      injection h with h
      subst h
      exact preserves_rfl σ

theorem asArray_preserves : ∀ (fuel : Nat) (σ : State) (a : Nat) (r : Res Nat),
    asArray fuel σ a = some r → Preserves σ r.st := by
  intro fuel
  induction fuel with
  | zero =>
    intro σ a r h
    exact absurd h (by simp [asArray])
  | succ m ih =>
    intro σ a r h
    cases hv : σ.read a with
    | empty =>
      simp only [asArray, hv] at h
      injection h with h
      subst h
      rw [finishA_st]
      exact preserves_write_empty σ a (.array []) hv
    | array es =>
      simp only [asArray, hv] at h
      injection h with h
      subst h
      rw [finishA_st]
      exact preserves_rfl σ
    | reference t =>
      cases hrec : asArray m σ t with
      | none =>
        simp only [asArray, hv, hrec] at h
        exact Option.noConfusion h
      | some r1 =>
        cases r1 with
        | err σ1 e =>
          simp only [asArray, hv, hrec] at h
          injection h with h
          subst h
          exact ih σ t (.err σ1 e) hrec
        | ok σ1 b =>
          cases hupd : updateE (m + 1) σ1 a with
          | none =>
            simp only [asArray, hv, hrec, hupd] at h
            exact Option.noConfusion h
          | some u =>
            simp only [asArray, hv, hrec, hupd] at h
            injection h with h
            subst h
            rw [finishA_st]
            exact ih σ t (.ok σ1 b) hrec
    | object ch =>
      simp only [asArray, hv] at h
      injection h with h
      subst h
      exact preserves_rfl σ
    | block b =>
      simp only [asArray, hv] at h
      injection h with h
      subst h
      exact preserves_rfl σ
    | scalarV v =>
      simp only [asArray, hv] at h
      injection h with h
      subst h
      exact preserves_rfl σ

theorem stepInsert_preserves (fuel : Nat) (σ : State) (p : Nat) (seg : Seg)
    (r : Res Nat) (h : stepInsert fuel σ p seg = some r) : Preserves σ r.st := by
  cases seg with
  | key k =>
    cases ha : asObject fuel σ p with
    | none =>
      simp only [stepInsert, ha] at h
      exact Option.noConfusion h
    | some r1 =>
      cases r1 with
      | err σ1 e =>
        simp only [stepInsert, ha] at h
        injection h with h
        subst h
        exact asObject_preserves fuel σ p (.err σ1 e) ha
      | ok σ1 o =>
        simp only [stepInsert, ha] at h
        injection h with h
        subst h
        exact preserves_trans (asObject_preserves fuel σ p (.ok σ1 o) ha)
          (tryEmplace_preserves σ1 o k)
  | index i =>
    cases ha : asArray fuel σ p with
    | none =>
      simp only [stepInsert, ha] at h
      exact Option.noConfusion h
    | some r1 =>
      cases r1 with
      | err σ1 e =>
        simp only [stepInsert, ha] at h
        injection h with h
        subst h
        exact asArray_preserves fuel σ p (.err σ1 e) ha
      | ok σ1 arr =>
        cases hat : arrAtAddr σ1 arr i with
        | ok c =>
          simp only [stepInsert, ha, hat] at h
          injection h with h
          subst h
          exact asArray_preserves fuel σ p (.ok σ1 arr) ha
        | error e =>
          simp only [stepInsert, ha, hat] at h
          injection h with h
          subst h
          exact asArray_preserves fuel σ p (.ok σ1 arr) ha

theorem pathInsert_preserves : ∀ (path : List Seg) (fuel : Nat) (σ : State)
    (p : Nat) (r : Res Nat), pathInsert fuel σ p path = some r → Preserves σ r.st := by
  intro path
  induction path with
  | nil =>
    intro fuel σ p r h
    simp only [pathInsert] at h
    injection h with h
    subst h
    exact preserves_rfl σ
  | cons seg rest ih =>
    intro fuel σ p r h
    cases hs : stepInsert fuel σ p seg with
    | none =>
      simp only [pathInsert, hs] at h
      exact Option.noConfusion h
    | some r1 =>
      cases r1 with
      | err σ1 e =>
        simp only [pathInsert, hs] at h
        injection h with h
        subst h
        exact stepInsert_preserves fuel σ p seg (.err σ1 e) hs
      | ok σ1 p1 =>
        simp only [pathInsert, hs] at h
        exact preserves_trans (stepInsert_preserves fuel σ p seg (.ok σ1 p1) hs)
          (ih fuel σ1 p1 r h)

theorem refFree_write (σ : State) (o : Nat) (v : EntryVal) (h : RefFree σ)
    (hv : ∀ t, v ≠ .reference t) : RefFree (σ.write o v) := by
  intro a t
  rw [read_write]
  by_cases hc : o = a
  · rw [if_pos hc]
    exact hv t
  · rw [if_neg hc]
    exact h a t

theorem refFree_bump (σ : State) (h : RefFree σ) : RefFree σ.bump :=
  fun a t => h a t

theorem asObject_refFree_st (fuel : Nat) (σ : State) (a : Nat) (r : Res Nat)
    (hrf : RefFree σ) (h : asObject fuel σ a = some r) : RefFree r.st := by
  match fuel with
  | 0 => exact absurd h (by simp [asObject])
  | m + 1 =>
    cases hv : σ.read a with
    | empty =>
      simp only [asObject, hv] at h
      injection h with h
      subst h
      rw [finishO_st]
      exact refFree_write σ a (.object []) hrf (fun t hc => EntryVal.noConfusion hc)
    | object ch =>
      simp only [asObject, hv] at h
      injection h with h
      subst h
      rw [finishO_st]
      exact hrf
    | reference t => exact absurd hv (hrf a t)
    | block b =>
      simp only [asObject, hv] at h
      injection h with h
      subst h
      exact hrf
    | array es =>
      simp only [asObject, hv] at h
      injection h with h
      subst h
      exact hrf
    | scalarV v =>
      simp only [asObject, hv] at h
      injection h with h
      subst h
      exact hrf

theorem asArray_refFree_st (fuel : Nat) (σ : State) (a : Nat) (r : Res Nat)
    (hrf : RefFree σ) (h : asArray fuel σ a = some r) : RefFree r.st := by
  match fuel with
  | 0 => exact absurd h (by simp [asArray])
  | m + 1 =>
    cases hv : σ.read a with
    | empty =>
      simp only [asArray, hv] at h
      injection h with h
      subst h
      rw [finishA_st]
      exact refFree_write σ a (.array []) hrf (fun t hc => EntryVal.noConfusion hc)
    | array es =>
      simp only [asArray, hv] at h
      injection h with h
      subst h
      rw [finishA_st]
      exact hrf
    | reference t => exact absurd hv (hrf a t)
    | object ch =>
      simp only [asArray, hv] at h
      injection h with h
      subst h
      exact hrf
    | block b =>
      simp only [asArray, hv] at h
      injection h with h
      subst h
      exact hrf
    | scalarV v =>
      simp only [asArray, hv] at h
      injection h with h
      subst h
      exact hrf

theorem tryEmplace_refFree (σ : State) (o : Nat) (k : String) (hrf : RefFree σ) :
    RefFree (tryEmplace σ o k).1 := by
  cases ho : σ.read o with
  | object ch =>
    cases hl : alookup ch k with
    | some c =>
      simp only [tryEmplace, ho, hl]
      exact hrf
    | none =>
      simp only [tryEmplace, ho, hl]
      exact refFree_bump _
        (refFree_write _ _ _ hrf (fun t hc => EntryVal.noConfusion hc))
  | empty =>
    simp only [tryEmplace, ho]
    exact hrf
  | block b =>
    simp only [tryEmplace, ho]
    exact hrf
  | array es =>
    simp only [tryEmplace, ho]
    exact hrf
  | reference t =>
    simp only [tryEmplace, ho]
    exact hrf
  | scalarV v =>
    simp only [tryEmplace, ho]
    exact hrf

theorem stepInsert_refFree (fuel : Nat) (σ σ1 : State) (p p1 : Nat) (seg : Seg)
    (hrf : RefFree σ) (h : stepInsert fuel σ p seg = some (.ok σ1 p1)) :
    RefFree σ1 := by
  cases seg with
  | key k =>
    cases ha : asObject fuel σ p with
    | none =>
      simp only [stepInsert, ha] at h
      exact Option.noConfusion h
    | some r1 =>
      cases r1 with
      | err σm e => simp [stepInsert, ha] at h
      | ok σm o =>
        simp only [stepInsert, ha] at h
        obtain ⟨h1, h2⟩ : (tryEmplace σm o k).1 = σ1 ∧ (tryEmplace σm o k).2 = p1 := by
          injection h with h
          injection h with h1 h2
          exact ⟨h1, h2⟩
        rw [← h1]
        exact tryEmplace_refFree σm o k (asObject_refFree_st fuel σ p (.ok σm o) hrf ha)
  | index i =>
    cases ha : asArray fuel σ p with
    | none =>
      simp only [stepInsert, ha] at h
      exact Option.noConfusion h
    | some r1 =>
      cases r1 with
      | err σm e => simp [stepInsert, ha] at h
      | ok σm arr =>
        cases hat : arrAtAddr σm arr i with
        | ok c =>
          simp only [stepInsert, ha, hat] at h
          obtain ⟨h1, h2⟩ : σm = σ1 ∧ c = p1 := by
            injection h with h
            injection h with h1 h2
            exact ⟨h1, h2⟩
          rw [← h1]
          exact asArray_refFree_st fuel σ p (.ok σm arr) hrf ha
        | error e => simp [stepInsert, ha, hat] at h

theorem write_next (σ : State) (a : Nat) (v : EntryVal) :
    (σ.write a v).next = σ.next := rfl

theorem stepInsert_key_agree (fuel : Nat) (σ σ1 σf : State) (p p1 : Nat) (k : String)
    (hrf : RefFree σ) (hstep : stepInsert fuel σ p (.key k) = some (.ok σ1 p1))
    (hpres : Preserves σ1 σf) : stepAt σf p (.key k) = .ok p1 := by
  match fuel with
  | 0 => simp [stepInsert, asObject] at hstep
  | m + 1 =>
    cases hv : σ.read p with
    | empty =>
      have hao := asObject_on_empty (m + 1) σ p hv (by omega)
      have hw : (σ.write p (.object [])).read p = .object [] := by
        rw [read_write, if_pos rfl]
      simp only [stepInsert, hao, tryEmplace, hw, alookup, List.nil_append,
        write_next] at hstep
      injection hstep with hstep
      injection hstep with h1 h2
      have hobj1 : σ1.read p = .object [(k, p1)] := by
        rw [← h1, ← h2, read_bump, read_write, if_pos rfl]
      obtain ⟨ch2, hch2, hk2⟩ := hpres.2 p [(k, p1)] hobj1
      have hl2 : alookup ch2 k = some p1 := hk2 k p1 (by simp [alookup])
      have hfp : Entry.fetch σf p = p := by
        unfold Entry.fetch
        rw [hch2]
      simp only [stepAt, hfp, hch2, hl2]
    | object ch =>
      have hao := asObject_on_object (m + 1) σ p ch hv (by omega)
      simp only [stepInsert, hao] at hstep
      cases hl : alookup ch k with
      | some c =>
        simp only [tryEmplace, hv, hl] at hstep
        injection hstep with hstep
        injection hstep with h1 h2
        subst h1
        subst h2
        obtain ⟨ch2, hch2, hk2⟩ := hpres.2 p ch hv
        have hl2 : alookup ch2 k = some c := hk2 k c hl
        have hfp : Entry.fetch σf p = p := by
          unfold Entry.fetch
          rw [hch2]
        simp only [stepAt, hfp, hch2, hl2]
      | none =>
        simp only [tryEmplace, hv, hl, write_next] at hstep
        injection hstep with hstep
        injection hstep with h1 h2
        have hobj1 : σ1.read p = .object (ch ++ [(k, p1)]) := by
          rw [← h1, ← h2, read_bump, read_write, if_pos rfl]
        obtain ⟨ch2, hch2, hk2⟩ := hpres.2 p (ch ++ [(k, p1)]) hobj1
        have hl2 : alookup ch2 k = some p1 :=
          hk2 k p1 (alookup_append_fresh ch k p1 hl)
        have hfp : Entry.fetch σf p = p := by
          unfold Entry.fetch
          rw [hch2]
        simp only [stepAt, hfp, hch2, hl2]
    | reference t => exact absurd hv (hrf p t)
    | block b => simp [stepInsert, asObject, hv] at hstep
    | array es => simp [stepInsert, asObject, hv] at hstep
    | scalarV v => simp [stepInsert, asObject, hv] at hstep

theorem stepInsert_index_agree (fuel : Nat) (σ σ1 σf : State) (p p1 : Nat) (i : Int)
    (hrf : RefFree σ) (hstep : stepInsert fuel σ p (.index i) = some (.ok σ1 p1))
    (hpres : Preserves σ1 σf) : stepAt σf p (.index i) = .ok p1 := by
  match fuel with
  | 0 => simp [stepInsert, asArray] at hstep
  | m + 1 =>
    cases hv : σ.read p with
    | empty =>
      have haa := asArray_on_empty (m + 1) σ p hv (by omega)
      have hw : (σ.write p (.array [])).read p = .array [] := by
        rw [read_write, if_pos rfl]
      have hva : vecAt [] i = .error .outOfRange := by
        unfold vecAt
        rw [dif_neg]
        intro hcon
        exact absurd hcon.2 (by simp)
      simp [stepInsert, haa, arrAtAddr, hw, hva] at hstep
    | array es =>
      have haa := asArray_on_array (m + 1) σ p es hv (by omega)
      simp only [stepInsert, haa, arrAtAddr, hv] at hstep
      cases hva : vecAt es i with
      | ok c =>
        simp only [hva] at hstep
        injection hstep with hstep
        injection hstep with h1 h2
        subst h1
        subst h2
        have hes : σf.read p = .array es := hpres.1 p es hv
        simp only [stepAt, hes, hva]
      | error e =>
        simp only [hva] at hstep
        simp at hstep
    | reference t => exact absurd hv (hrf p t)
    | object ch => simp [stepInsert, asArray, hv] at hstep
    | block b => simp [stepInsert, asArray, hv] at hstep
    | scalarV v => simp [stepInsert, asArray, hv] at hstep

/-- C3, amended.  For every reference-free heap and every path that the
mutable `insert` walker can traverse, `at` on the resulting heap walks the
very same addresses and returns the identical node (the same heap address,
i.e. pointer identity).  The restriction to reference-free heaps is forced
by `c3_counterexample`: a `Reference` feeding an Index segment is accepted
by `insert` but rejected by the const `at`. -/
theorem c3_insert_then_at (path : List Seg) : ∀ (fuel : Nat) (σ σ1 : State) (p r : Nat),
    RefFree σ → pathInsert fuel σ p path = some (.ok σ1 r) →
    pathAt σ1 p path = .ok r := by
  induction path with
  | nil =>
    intro fuel σ σ1 p r hrf h
    simp only [pathInsert] at h
    injection h with h
    injection h with h1 h2
    subst h1
    subst h2
    rfl
  | cons seg rest ih =>
    intro fuel σ σ1 p r hrf h
    cases hs : stepInsert fuel σ p seg with
    | none =>
      simp only [pathInsert, hs] at h
      exact Option.noConfusion h
    | some r1 =>
      cases r1 with
      | err σm e =>
        simp only [pathInsert, hs] at h
        simp at h
      | ok σm pm =>
        simp only [pathInsert, hs] at h
        have hrfm : RefFree σm := stepInsert_refFree fuel σ σm p pm seg hrf hs
        have hpres : Preserves σm σ1 := pathInsert_preserves rest fuel σm pm (.ok σ1 r) h
        have hstep : stepAt σ1 p seg = .ok pm := by
          cases seg with
          | key k => exact stepInsert_key_agree fuel σ σm σ1 p pm k hrf hs hpres
          | index i => exact stepInsert_index_agree fuel σ σm σ1 p pm i hrf hs hpres
        simp only [pathAt, hstep]
        exact ih fuel σm σ1 pm r hrfm h

/-- Witness for C3: inserting the path `a` into the empty heap yields the
child at address 1, and `at` on the resulting heap returns the same
address. -/
theorem c3_witness : pathAt insHeap 0 [Seg.key "a"] = .ok 1 :=
  c3_insert_then_at [Seg.key "a"] 1 emptyHeap insHeap 0 1
    (fun _ _ h => EntryVal.noConfusion h) (by decide)

/-- C6.  `EntryObjectDefault::insert` via `try_emplace`: with the key
present the existing child is returned and the heap — so in particular the
existing child's content — is untouched; with the key absent a fresh Empty
child is bound under the key while every binding already present survives;
repeating the call returns the same child and changes nothing further
(idempotence).  The final clause states the same return-existing contract
for the older in-memory `EntryInterfaceInMemory::insert` on an Object
node. -/
theorem c6_insert_idempotent (σ : State) (o : Nat) (ch : List (String × Nat))
    (k : String) (hobj : σ.read o = .object ch) (hfr : Fresh σ) :
    (∀ c, alookup ch k = some c → tryEmplace σ o k = (σ, c)) ∧
    (alookup ch k = none →
      (tryEmplace σ o k).2 = σ.next ∧
      (tryEmplace σ o k).1.read σ.next = .empty ∧
      (tryEmplace σ o k).1.read o = .object (ch ++ [(k, σ.next)]) ∧
      (∀ k1 c1, alookup ch k1 = some c1 →
        alookup (ch ++ [(k, σ.next)]) k1 = some c1)) ∧
    (∀ σ1 c, tryEmplace σ o k = (σ1, c) → tryEmplace σ1 o k = (σ1, c)) ∧
    (∀ chs v, SpMem.alookupM chs k = some v →
      SpMem.minsert (.object chs) k = (.object chs, some v)) := by
  refine ⟨?_, ?_, ?_, ?_⟩
  · intro c hl
    simp only [tryEmplace, hobj, hl]
  · intro hl
    refine ⟨by simp only [tryEmplace, hobj, hl], ?_, ?_,
      fun k1 c1 hc => alookup_append_some ch [(k, σ.next)] k1 c1 hc⟩
    · have hne : o ≠ σ.next := by
        intro hc
        have hemp := hfr σ.next (le_refl σ.next)
        rw [← hc] at hemp
        rw [hobj] at hemp
        exact EntryVal.noConfusion hemp
      simp only [tryEmplace, hobj, hl]
      rw [read_bump, read_write, if_neg hne]
      exact hfr σ.next (le_refl σ.next)
    · simp only [tryEmplace, hobj, hl]
      rw [read_bump, read_write, if_pos rfl]
  · intro σ1 c h
    cases hl : alookup ch k with
    | some c0 =>
      simp only [tryEmplace, hobj, hl] at h
      injection h with h1 h2
      subst h1
      subst h2
      simp only [tryEmplace, hobj, hl]
    | none =>
      simp only [tryEmplace, hobj, hl, write_next] at h
      injection h with h1 h2
      have hro : σ1.read o = .object (ch ++ [(k, σ.next)]) := by
        rw [← h1, read_bump, read_write, if_pos rfl]
      have hl1 : alookup (ch ++ [(k, σ.next)]) k = some σ.next :=
        alookup_append_fresh ch k σ.next hl
      rw [← h2]
      simp only [tryEmplace, hro, hl1]
  · intro chs v hl
    simp only [SpMem.minsert, hl]

/-- Witness for C6: inserting the already-present key `a` of `objHeap`
returns the existing child address 1 with the heap unchanged. -/
theorem c6_witness : tryEmplace objHeap 0 "a" = (objHeap, 1) :=
  (c6_insert_idempotent objHeap 0 [("a", 1)] "a" rfl
    (fun a ha => by
      have h0 : (0 : Nat) ≠ a := by
        simp only [objHeap] at ha
        omega
      simp [objHeap, State.read, lookupMem, h0])).1 1 (by decide)

end SpdbDb

namespace SpMem

/-- C9, counterexample.  A node holding a Tensor is turned into a Single by
`set_single` without an intervening `clear()`: the guard
`type() < Entry::Type::Array` (Entry.cpp:91) admits every leaf variant, so
the concrete non-Empty Tensor variant is silently replaced by Single. -/
theorem c9_counterexample :
    setSingle (.tensor 0) 5 = some (.single 5) ∧ typeTag (.tensor 0) ≠ 0 :=
  ⟨rfl, by decide⟩

/-- C9, amended.  Exactly one variant is active at a time (the payload is a
sum type), `Entry::clear` resets an entry to Empty, and the container
variants are protected — `set_single`/`set_tensor`/`set_block` fail on
Array and Object.  But the setters freely overwrite every leaf variant
(Null, Single, Tensor, Block) without an intervening clear; only the
container variants guard against overwriting. -/
theorem c9_variant_transitions (d : MData) (v : Int) (t b : Nat) :
    (typeTag d < 4 →
      setSingle d v = some (.single v) ∧ setTensor d t = some (.tensor t) ∧
      setBlock d b = some (.block b)) ∧
    (4 ≤ typeTag d →
      setSingle d v = none ∧ setTensor d t = none ∧ setBlock d b = none) ∧
    (∀ (σ : SpdbDb.State) (a : Nat),
      (SpdbDb.Entry.clear σ a).read a = .empty) := by
  refine ⟨?_, ?_, ?_⟩
  · intro h
    exact ⟨by simp [setSingle, if_pos h], by simp [setTensor, if_pos h],
      by simp [setBlock, if_pos h]⟩
  · intro h
    have hn : ¬ typeTag d < 4 := by omega
    exact ⟨by simp [setSingle, if_neg hn], by simp [setTensor, if_neg hn],
      by simp [setBlock, if_neg hn]⟩
  · intro σ a
    show (σ.write a .empty).read a = .empty
    rw [SpdbDb.read_write, if_pos rfl]

/-- Witness for C9: overwriting a Tensor node with each setter. -/
theorem c9_witness :
    setSingle (.tensor 0) 5 = some (.single 5) ∧
    setTensor (.tensor 0) 7 = some (.tensor 7) ∧
    setBlock (.tensor 0) 9 = some (.block 9) :=
  (c9_variant_transitions (.tensor 0) 5 7 9).1 (by decide)

/-- C10.  `Entry::has_a` and `EntryInterfaceInMemory::has_attribute` return
the NEGATION of membership (`return !find(key)` / `return !find("@" +
name)`): on an Object holding the child `a`, `has_a("a")` is `false`
although `find` succeeds, and with the key absent `has_a` is `true`; the
attribute predicate behaves the same on `@x`.  The surrounding code shows
the intent is the positive predicate: `Entry::at` (Entry.cpp:449,467)
throws exactly when `!p`, i.e. an empty iterator means "absent", so these
membership predicates are inverted. -/
theorem c10_membership_inverted :
    has_a (.object [("a", .null)]) "a" = false ∧
    find (.object [("a", .null)]) "a" = some .null ∧
    has_a (.object []) "a" = true ∧
    has_attribute (.object [("@x", .single 1)]) "x" = false ∧
    find (.object [("@x", .single 1)]) ("@" ++ "x") = some (.single 1) :=
  ⟨rfl, rfl, rfl, rfl, rfl⟩

/-- C8, counterexample.  `Entry::operator[]` applied with a negative index
does not fail and does not refuse to address an element: it silently
appends a fresh Null element through `push_back` and returns it. -/
theorem c8_counterexample :
    spOpIdx (.array [.single 1]) (-1) = .ok (.array [.single 1, .null]) .null :=
  rfl

/-- C8, amended.  For `EntryArrayDefault::at`, access at or past `size()`
fails with OutOfRange, and a negative index also fails — the `int` is
converted to an enormous unsigned index, never wrapped to a valid position,
and no default or fresh element is produced.  In the older `sp::Entry`
however, `operator[]` routes every negative index to `push_back`, silently
appending and returning a fresh Null element. -/
theorem c8_at_bounds (es : List Nat) (i : Int) :
    ((es.length : Int) ≤ i → SpdbDb.vecAt es i = .error .outOfRange) ∧
    (i < 0 → SpdbDb.vecAt es i = .error .outOfRange) ∧
    (∀ ms : List MData, i < 0 →
      spOpIdx (.array ms) i = .ok (.array (ms ++ [.null])) .null) := by
  refine ⟨?_, ?_, ?_⟩
  · intro h
    unfold SpdbDb.vecAt
    rw [dif_neg]
    intro hcon
    omega
  · intro h
    unfold SpdbDb.vecAt
    rw [dif_neg]
    intro hcon
    omega
  · intro ms h
    simp only [spOpIdx, if_pos h, spPushBack]

/-- Witness for C8: out-of-range access on the empty array. -/
theorem c8_witness : SpdbDb.vecAt [] 0 = .error .outOfRange :=
  (c8_at_bounds [] 0).1 (by decide)

end SpMem

namespace SpdbCreate

theorem beforeColon_spec (l : List Char) (h : ':' ∈ l) :
    ∃ pre suf, l = pre ++ ':' :: suf ∧ ':' ∉ pre ∧ beforeColon l = some pre := by
  induction l with
  | nil => cases h
  | cons c cs ih =>
    by_cases hc : c = ':'
    · subst hc
      exact ⟨[], cs, rfl, by simp, by simp [beforeColon]⟩
    · have hm : ':' ∈ cs := by
        rcases List.mem_cons.mp h with h1 | h2
        · exact absurd h1.symm hc
        · exact h2
      obtain ⟨pre, suf, h1, h2, h3⟩ := ih hm
      refine ⟨c :: pre, suf, by simp [h1], ?_, ?_⟩
      · intro hmem
        rcases List.mem_cons.mp hmem with hx | hx
        · exact hc hx.symm
        · exact h2 hx
      · simp [beforeColon, hc, h3]

theorem beforeColon_of_not_mem (l : List Char) (h : ':' ∉ l) :
    beforeColon l = none := by
  induction l with
  | nil => rfl
  | cons c cs ih =>
    have hc : ¬ (c = ':') := by
      intro hcc
      refine h ?_
      rw [hcc]
      exact List.mem_cons_self ':' cs
    have hm : ':' ∉ cs := fun hmm => h (List.mem_cons_of_mem c hmm)
    simp [beforeColon, hc, ih hm]

theorem fromLastDot_of_not_mem (l : List Char) (h : '.' ∉ l) :
    fromLastDot l = none := by
  induction l with
  | nil => rfl
  | cons c cs ih =>
    have hc : ¬ (c = '.') := by
      intro hcc
      refine h ?_
      rw [hcc]
      exact List.mem_cons_self '.' cs
    have hm : '.' ∉ cs := fun hmm => h (List.mem_cons_of_mem c hmm)
    simp [fromLastDot, ih hm, hc]

theorem fromLastDot_spec (l : List Char) (h : '.' ∈ l) :
    ∃ pre suf, l = pre ++ '.' :: suf ∧ '.' ∉ suf ∧
      fromLastDot l = some ('.' :: suf) := by
  induction l with
  | nil => cases h
  | cons c cs ih =>
    by_cases hm : '.' ∈ cs
    · obtain ⟨pre, suf, h1, h2, h3⟩ := ih hm
      refine ⟨c :: pre, suf, by simp [h1], h2, ?_⟩
      simp [fromLastDot, h3]
    · have hc : c = '.' := by
        rcases List.mem_cons.mp h with h1 | h2
        · exact h1.symm
        · exact absurd h2 hm
      subst hc
      refine ⟨[], cs, rfl, hm, ?_⟩
      simp [fromLastDot, fromLastDot_of_not_mem cs hm]

/-- C5, counterexample.  The fallback scheme of `"foo.xyz"` is the
substring FROM the last dot — `".xyz"`, the dot included — not the
substring after it.  The failure therefore names `".xyz"`, observably
different from the `"xyz"` the claim prescribes. -/
theorem c5_counterexample :
    create hdf5Reg (String.toList "foo.xyz") = .unknown (String.toList ".xyz") ∧
    String.toList ".xyz" ≠ String.toList "xyz" := by
  constructor
  · decide
  · decide

/-- C5, amended.  Backend resolution from a request string: the scheme is
the text before the first `:`; with no colon it falls back to the
substring FROM the last `.` — the dot included, so `"foo.h5"` resolves the
scheme `".h5"` rather than `"h5"`; with neither separator the whole
request is the scheme.  An empty scheme — in particular the empty request
— selects the default in-memory backend.  `"foo.h5"` resolves to the hdf5
backend, because the associated pattern `^(.*)\.(hdf5|h5)$` also matches
`".h5"`; a resolved scheme other than `http`/`https` that matches no
registered pattern fails with UnknownBackend naming the (dot-included)
scheme, e.g. `"bogus://x"` fails naming `"bogus"`. -/
theorem c5_backend_resolution :
    (∀ req : List Char, ':' ∈ req →
      ∃ pre suf, req = pre ++ ':' :: suf ∧ ':' ∉ pre ∧ schemaOf req = pre) ∧
    (∀ req : List Char, ':' ∉ req → '.' ∈ req →
      ∃ pre suf, req = pre ++ '.' :: suf ∧ '.' ∉ suf ∧
        schemaOf req = '.' :: suf) ∧
    (∀ req : List Char, ':' ∉ req → '.' ∉ req → schemaOf req = req) ∧
    create hdf5Reg (String.toList "foo.h5") = .backend (String.toList "hdf5") ∧
    create hdf5Reg (String.toList "bogus://x") = .unknown (String.toList "bogus") ∧
    create hdf5Reg [] = .defaultMem ∧
    (∀ (reg : List Reg) (req : List Char), req ≠ [] → schemaOf req = [] →
      create reg req = .defaultMem) ∧
    (∀ (reg : List Reg) (req : List Char), req ≠ [] → schemaOf req ≠ [] →
      schemaOf req ≠ String.toList "http" → schemaOf req ≠ String.toList "https" →
      (∀ r ∈ reg, r.pat (schemaOf req) = false) →
      create reg req = .unknown (schemaOf req)) := by
  refine ⟨?_, ?_, ?_, by decide, by decide, by decide, ?_, ?_⟩
  · intro req h
    obtain ⟨pre, suf, h1, h2, h3⟩ := beforeColon_spec req h
    exact ⟨pre, suf, h1, h2, by simp [schemaOf, h3]⟩
  · intro req h1 h2
    obtain ⟨pre, suf, hs1, hs2, hs3⟩ := fromLastDot_spec req h2
    exact ⟨pre, suf, hs1, hs2,
      by simp [schemaOf, beforeColon_of_not_mem req h1, hs3]⟩
  · intro req h1 h2
    simp [schemaOf, beforeColon_of_not_mem req h1, fromLastDot_of_not_mem req h2]
  · intro reg req h1 h2
    unfold create
    rw [if_neg h1]
    show (if schemaOf req = String.toList "http" ∨ schemaOf req = String.toList "https"
        then CreateRes.notImpl
        else if schemaOf req = [] then CreateRes.defaultMem
        else match List.find? (fun r => r.pat (schemaOf req)) reg with
          | some r => CreateRes.backend r.name
          | none => CreateRes.unknown (schemaOf req)) = CreateRes.defaultMem
    rw [h2]
    rw [if_neg (by decide), if_pos rfl]
  · intro reg req h1 h2 h3 h4 h5
    unfold create
    rw [if_neg h1]
    show (if schemaOf req = String.toList "http" ∨ schemaOf req = String.toList "https"
        then CreateRes.notImpl
        else if schemaOf req = [] then CreateRes.defaultMem
        else match List.find? (fun r => r.pat (schemaOf req)) reg with
          | some r => CreateRes.backend r.name
          | none => CreateRes.unknown (schemaOf req)) = CreateRes.unknown (schemaOf req)
    have hor : ¬ (schemaOf req = String.toList "http" ∨
        schemaOf req = String.toList "https") := by
      intro hc
      rcases hc with hc | hc
      · exact h3 hc
      · exact h4 hc
    rw [if_neg hor, if_neg h2]
    have hfind : List.find? (fun r => r.pat (schemaOf req)) reg = none := by
      rw [List.find?_eq_none]
      intro r hr
      rw [h5 r hr]
      simp
    rw [hfind]

/-- Witness for C5: the first-colon clause at the request `"a:b"`. -/
theorem c5_witness :
    ∃ pre suf, String.toList "a:b" = pre ++ ':' :: suf ∧ ':' ∉ pre ∧
      schemaOf (String.toList "a:b") = pre :=
  c5_backend_resolution.1 (String.toList "a:b") (by decide)

end SpdbCreate
